import Mathlib

/-!
# Verification of the UHH2-utils XML/ntuple-directory indexing pipeline

A shallow embedding of `create_sql_db_xml.py`.  Python strings are modelled
as `List Char`; the Python standard-library path helpers used by the script
(`os.path.normpath`, `os.path.dirname`, `os.path.splitext`, `str.strip`,
`str.split("/")`, substring tests) are embedded faithfully from their CPython
(posixpath) definitions.  Filesystem access (`os.walk`, `os.path.isdir`,
`os.lstat`) is abstracted as an oracle, and a scan root is modelled as an
association list from relative file paths to file contents (lists of lines),
since the claims under study only concern the pure path / line processing
and the shape of the produced rows.
-/

set_option autoImplicit false

/-! ## Generic list/string helpers (Python string primitives) -/

/-- Python `str.startswith`: does `l` start with `pat`. -/
def listStarts : List Char → List Char → Bool
  | [], _ => true
  | _ :: _, [] => false
  | p :: ps, c :: cs => p == c && listStarts ps cs

/-- Python `str.endswith`. -/
def listEnds (pat l : List Char) : Bool :=
  listStarts pat.reverse l.reverse

/-- Python substring test `pat in s`. -/
def containsSub (pat : List Char) : List Char → Bool
  | [] => listStarts pat []
  | c :: cs => listStarts pat (c :: cs) || containsSub pat cs

/-- Index of the first element satisfying `f` (Python `list.index` combined
with a first-match loop; `none` when no element satisfies `f`). -/
def firstIdxWith {α : Type} (f : α → Bool) : List α → Option Nat
  | [] => none
  | a :: rest => if f a then some 0 else (firstIdxWith f rest).map (· + 1)

/-- Python `s.split("/")`: split on every `'/'`, keeping empty pieces.
Always returns at least one piece. -/
def splitSlash : List Char → List (List Char)
  | [] => [[]]
  | c :: rest =>
    if c = '/' then [] :: splitSlash rest
    else (c :: (splitSlash rest).headD []) :: (splitSlash rest).tail

/-- Python `"/".join(pieces)`. -/
def joinSlash : List (List Char) → List Char
  | [] => []
  | [s] => s
  | s :: t :: rest => s ++ '/' :: joinSlash (t :: rest)

/-- Characters stripped by Python `str.strip()` (ASCII whitespace). -/
def pySpace (c : Char) : Bool :=
  c == ' ' || c == '\t' || c == '\n' || c == '\r' || c == '\x0b' || c == '\x0c'

/-- Python `str.strip()`. -/
def pyStrip (l : List Char) : List Char :=
  ((l.dropWhile pySpace).reverse.dropWhile pySpace).reverse

/-! ## `os.path` primitives (CPython `posixpath`) -/

/-- Number of leading slashes kept by `posixpath.normpath`: POSIX allows one
or two initial slashes, three or more are treated as one. -/
def initialSlashes (p : List Char) : Nat :=
  if listStarts ['/'] p then
    if listStarts ['/', '/'] p && !listStarts ['/', '/', '/'] p then 2 else 1
  else 0

/-- One step of the `posixpath.normpath` component loop.  `k` is the
`initial_slashes` count of the whole path (its truthiness is consulted when
deciding whether a leading `".."` is kept). -/
def npStep (k : Nat) (acc : List (List Char)) (comp : List Char) : List (List Char) :=
  if comp = [] ∨ comp = ['.'] then acc
  else if comp ≠ "..".data
          ∨ (k = 0 ∧ acc = [])
          ∨ (acc ≠ [] ∧ acc.getLastD [] = "..".data) then acc ++ [comp]
  else acc.dropLast

/-- CPython `posixpath.normpath`. -/
def normpath (p : List Char) : List Char :=
  if p = [] then ['.']
  else
    let k := initialSlashes p
    let newComps := (splitSlash p).foldl (npStep k) []
    let path := List.replicate k '/' ++ joinSlash newComps
    if path = [] then ['.'] else path

/-- CPython `posixpath.dirname`: everything up to the last `'/'`, with
trailing slashes stripped unless the head consists only of slashes. -/
def pyDirname (p : List Char) : List Char :=
  let head := (p.reverse.dropWhile (fun c => c != '/')).reverse
  if head ≠ [] ∧ ¬head.all (· == '/') = true then
    (head.reverse.dropWhile (· == '/')).reverse
  else head

/-- Last index of `c` in `l`, if any. -/
def lastIdxOf (c : Char) (l : List Char) : Option Nat :=
  (firstIdxWith (· == c) l.reverse).map (fun i => l.length - 1 - i)

/-- The extension component of CPython `os.path.splitext` (posix flavour):
the part from the last `'.'` on, provided some non-dot character precedes it
within the basename; leading dots of the basename never start an extension. -/
def pySplitextExt (p : List Char) : List Char :=
  match lastIdxOf '.' p with
  | none => []
  | some di =>
    let si : Int := match lastIdxOf '/' p with
      | none => -1
      | some i => (i : Int)
    if si < (di : Int) then
      let between := (p.drop (si + 1).toNat).take (di - (si + 1).toNat)
      if between.any (fun c => c != '.') then p.drop di else []
    else []

/-! ### Sanity checks of the stdlib embedding against CPython outputs -/

example : normpath "".data = ".".data := by decide
example : normpath "a/0000/0000".data = "a/0000/0000".data := by decide
example : normpath "//a//b/".data = "//a/b".data := by decide
example : normpath "///a".data = "/a".data := by decide
example : normpath "a/../../b".data = "../b".data := by decide
example : normpath "/../a".data = "/a".data := by decide
example : normpath "//".data = "//".data := by decide
example : pyDirname "a/0000/f.root".data = "a/0000".data := by decide
example : pyDirname "///".data = "///".data := by decide
example : pyDirname "x//".data = "x".data := by decide
example : pyDirname "noslash".data = "".data := by decide
example : pySplitextExt ".xml".data = "".data := by decide
example : pySplitextExt "a.xml".data = ".xml".data := by decide
example : pySplitextExt "..xml".data = "".data := by decide

/-! ## The script's own pure functions (`create_sql_db_xml.py`) -/

/-- Embedding of `re.match(r"^[0-9]{4}$", s)` as a Boolean: exactly four ASCII digits
(`$` also matches just before one final newline, as in Python `re`). -/
def matches4 (s : List Char) : Bool :=
  (s.length == 4 && s.all Char.isDigit)
    || (s.length == 5 && (s.take 4).all Char.isDigit && s.getLastD ' ' == '\n')

/-- Lines 267-271 of `get_ntuple_dirs_from_xml`: split the (already
`normpath`-ed) directory on `"/"` and drop a final component consisting of
exactly four digits (the CRAB `0000` retry/shard directory). -/
def strip4Last (d : List Char) : List Char :=
  if matches4 ((splitSlash d).getLastD []) then joinSlash (splitSlash d).dropLast else d

/-- Normalization applied to a directory inside `get_ntuple_dirs_from_xml`:
`os.path.normpath` followed by the 4-digit shard strip. -/
def normDir (d : List Char) : List Char :=
  strip4Last (normpath d)

/-- The full per-referenced-file normalization of `get_ntuple_dirs_from_xml`:
`normpath(os.path.dirname(fname))` followed by the shard strip. -/
def ntupleDirOfFile (f : List Char) : List Char :=
  normDir (pyDirname f)

/-- The `dirs` set of `get_ntuple_dirs_from_xml`, built over a list of
referenced filenames.  Python uses a hash `set` and returns `list(dirs)`
(iteration order unspecified); we model it as an insertion-ordered list
without duplicates — the claims only concern membership and cardinality. -/
def getNtupleDirsOfFiles (files : List (List Char)) : List (List Char) :=
  files.foldl (fun dirs f =>
    let d := ntupleDirOfFile f
    if d ∈ dirs then dirs else dirs ++ [d]) []

/-- The year-candidate validity test `_is_year` of `get_year_from_path`. -/
def isYearSeg (s : List Char) : Bool :=
  (containsSub "16".data s || containsSub "17".data s || containsSub "18".data s)
    && !containsSub ".xml".data s

/-- Embedding of `XMLFileDataGenerator.get_year_from_path`.  The Python loop returns at
the first component containing `"RunII_"` and uses `parts.index(p)` for its
position; since any earlier component equal to `p` would itself contain
`"RunII_"`, that index is exactly the first index whose component contains
`"RunII_"`, which is what `firstIdxWith` computes. -/
def getYearFromPath (p : List Char) : Option (List Char) :=
  let parts := splitSlash p
  match firstIdxWith (fun s => containsSub "RunII_".data s) parts with
  | some ind =>
    if ind = parts.length - 1 then none
    else
      let year := parts.getD (ind + 1) []
      if isYearSeg year then some year else none
  | none => parts.find? (fun s => isYearSeg s)

/-- Embedding of `re.search(branch_pattern2, p)` with `branch_pattern2 = r"[0-9]+X_"`:
does `p` contain a digit immediately followed by `"X_"` (the `+` needs at
least one digit, further digits before it are irrelevant to existence)? -/
def hasNumXUnderscore : List Char → Bool
  | c1 :: c2 :: c3 :: rest =>
    (c1.isDigit && c2 == 'X' && c3 == '_') || hasNumXUnderscore (c2 :: c3 :: rest)
  | _ => false

/-- Embedding of `XMLFileDataGenerator.get_branch_from_path`. -/
def getBranchFromPath (p : List Char) : Option (List Char) :=
  let parts := splitSlash p
  parts.find? (fun s =>
    (containsSub "RunII_".data s || hasNumXUnderscore s)
      && !containsSub ".xml".data s)

/-- Embedding of `XMLNtupleDirDataGenerator.get_dir_user`.  The `none` arms of the two
`match`es are unreachable when the corresponding substring test succeeded
(Python would raise `ValueError` from `parts.index`); this is proved below
(`userSeg_of_containsSub`). -/
def getDirUser (d : List Char) : Option (List Char) :=
  if !containsSub "/user/".data d && !containsSub "/group/".data d then none
  else
    let n := normpath d
    let parts := splitSlash n
    if containsSub "/user/".data n then
      match firstIdxWith (· = "user".data) parts with
      | some ind =>
        if ind = parts.length - 1 then none else some (parts.getD (ind + 1) [])
      | none => none
    else if containsSub "/group/".data n then
      match firstIdxWith (· = "group".data) parts with
      | some ind =>
        if ind = parts.length - 1 then none else some (parts.getD (ind + 1) [])
      | none => none
    else none

/-! ## The referenced-file extraction (`get_ntuple_filenames_from_xml`) -/

/-- Tail of the extraction pattern after the greedy capture:
`'" Lumi="0\.0" ?\/>'` — the literal `" Lumi="0.0"`, an optional space, and
`/>` must follow the captured group (as a prefix of the remaining text;
`re.search` allows further trailing characters). -/
def lumiTail (s : List Char) : Bool :=
  listStarts "\" Lumi=\"0.0\" />".data s || listStarts "\" Lumi=\"0.0\"/>".data s

/-- Greedy choice of the capture group `(.+)`: the longest nonempty
newline-free prefix of `s` whose remainder starts with the pattern tail.
`captureFrom s k` tries lengths `k, k-1, …, 1`. -/
def captureFrom (s : List Char) : Nat → Option (List Char)
  | 0 => none
  | k + 1 =>
    if !(s.take (k + 1)).any (· == '\n') && lumiTail (s.drop (k + 1)) then
      some (s.take (k + 1))
    else captureFrom s k

/-- Match of `'< ?In FileName="(.+)" Lumi="0\.0" ?\/>'` anchored at the
start of `l`, returning the captured group.  The optional space after `'<'`
needs no backtracking: a space and `'I'` cannot coincide. -/
def matchFnameAt (l : List Char) : Option (List Char) :=
  match l with
  | '<' :: rest =>
    if listStarts " In FileName=\"".data rest then
      captureFrom (rest.drop 14) (rest.drop 14).length
    else if listStarts "In FileName=\"".data rest then
      captureFrom (rest.drop 13) (rest.drop 13).length
    else none
  | _ => none

/-- Embedding of `re.search(fname_pattern, line)`: leftmost starting position wins, with
full backtracking (`matchFnameAt`) at each position. -/
def searchFname : List Char → Option (List Char)
  | [] => none
  | c :: rest =>
    match matchFnameAt (c :: rest) with
    | some g => some g
    | none => searchFname rest

/-- One iteration of the line loop of `get_ntuple_filenames_from_xml`:
given the `is_comment` flag, returns the updated flag and the yielded
filename (if any).  Mirrors the Python control flow: strip; a line starting
with `<!--` sets the flag; a line ending with `-->` clears it and is
skipped; a line with the flag set is skipped; otherwise the line is matched
against the filename pattern. -/
def extractStep (isComment : Bool) (line : List Char) : Bool × Option (List Char) :=
  let l := pyStrip line
  let st := if listStarts "<!--".data l then true else isComment
  if listEnds "-->".data l then (false, none)
  else if st then (st, none)
  else (st, searchFname (pyStrip l))

/-- The whole line loop, over a list of raw lines. -/
def extractGo : Bool → List (List Char) → List (List Char)
  | _, [] => []
  | st, line :: rest =>
    match extractStep st line with
    | (st2, none) => extractGo st2 rest
    | (st2, some f) => f :: extractGo st2 rest

/-- Embedding of `get_ntuple_filenames_from_xml`, on the file's lines. -/
def extractRefs (lines : List (List Char)) : List (List Char) :=
  extractGo false lines

/-- Embedding of `get_ntuple_dirs_from_xml`, on the file's lines. -/
def getNtupleDirsFromLines (lines : List (List Char)) : List (List Char) :=
  getNtupleDirsOfFiles (extractRefs lines)

/-! ### Sanity checks of the script-function embedding -/

example :
    searchFname "<In FileName=\"RunII_102X_v1/2017v2/store/user/alice/job/0000/f1.root\" Lumi=\"0.0\"/>".data
      = some "RunII_102X_v1/2017v2/store/user/alice/job/0000/f1.root".data := by decide
example :
    searchFname "<In FileName=\"a\" Lumi=\"0.0\"/> junk <In FileName=\"b\" Lumi=\"0.0\"/>".data
      = some "a\" Lumi=\"0.0\"/> junk <In FileName=\"b".data := by decide
example : searchFname "no match here".data = none := by decide
example : getYearFromPath "RunII_102X_v1/2017v2/MC_TTbar.xml".data = some "2017v2".data := by decide
example : getYearFromPath "RunII_foo/bar.xml".data = none := by decide
example : getBranchFromPath "RunII_102X_v1/2017v2/MC_TTbar.xml".data = some "RunII_102X_v1".data := by decide
example : getDirUser "/pnfs/desy.de/cms/tier2//store/user/abenecke/RunII_102X_v1/PUPPIStudies/".data
    = some "abenecke".data := by decide
example : getDirUser "/pnfs/desy.de/cms/tier2//store/group/uhh/uhh2ntuples/RunII_102X_v2/".data
    = some "uhh".data := by decide
example : getDirUser "user/alice/x".data = none := by decide
example : getDirUser "/a/group/b/user".data = some "b".data := by decide
example : normDir "a/0000/0000".data = "a/0000".data := by decide
example : normDir "a/0000".data = "a".data := by decide
example : ntupleDirOfFile "RunII_102X_v1/2017v2/store/user/alice/job/0000/f1.root".data
    = "RunII_102X_v1/2017v2/store/user/alice/job".data := by decide

/-! ## Basic lemmas about the string helpers -/

theorem splitSlash_ne_nil (l : List Char) : splitSlash l ≠ [] := by
  cases l with
  | nil => simp [splitSlash]
  | cons c rest =>
    simp only [splitSlash]
    split <;> simp

theorem splitSlash_cons_slash (rest : List Char) :
    splitSlash ('/' :: rest) = [] :: splitSlash rest := by
  simp [splitSlash]

theorem splitSlash_cons_ne (c : Char) (rest : List Char) (hc : c ≠ '/') :
    splitSlash (c :: rest) = (c :: (splitSlash rest).headD []) :: (splitSlash rest).tail := by
  simp [splitSlash, hc]

theorem splitSlash_append (a b : List Char) :
    splitSlash (a ++ '/' :: b) = splitSlash a ++ splitSlash b := by
  induction a with
  | nil => simp [splitSlash_cons_slash, splitSlash]
  | cons c a' ih =>
    by_cases hc : c = '/'
    · subst hc
      rw [List.cons_append, splitSlash_cons_slash, splitSlash_cons_slash, ih, List.cons_append]
    · obtain ⟨h, t, e⟩ := List.exists_cons_of_ne_nil (splitSlash_ne_nil a')
      rw [List.cons_append, splitSlash_cons_ne c _ hc, splitSlash_cons_ne c _ hc, ih, e]
      simp

theorem splitSlash_no_slash (l : List Char) : ∀ s ∈ splitSlash l, '/' ∉ s := by
  induction l with
  | nil => simp [splitSlash]
  | cons c rest ih =>
    by_cases hc : c = '/'
    · subst hc
      rw [splitSlash_cons_slash]
      intro s hs
      rcases List.mem_cons.mp hs with hs | hs
      · simp [hs]
      · exact ih s hs
    · rw [splitSlash_cons_ne c rest hc]
      obtain ⟨h, t, e⟩ := List.exists_cons_of_ne_nil (splitSlash_ne_nil rest)
      intro s hs
      rcases List.mem_cons.mp hs with hs | hs
      · rw [e] at hs
        simp only [List.headD_cons] at hs
        subst hs
        intro hmem
        rcases List.mem_cons.mp hmem with hmem | hmem
        · exact hc hmem.symm
        · exact ih h (by rw [e]; exact List.mem_cons_self h t) hmem
      · rw [e] at hs
        simp only [List.tail_cons] at hs
        exact ih s (by rw [e]; exact List.mem_cons_of_mem h hs)

theorem splitSlash_of_no_slash (l : List Char) (h : '/' ∉ l) : splitSlash l = [l] := by
  induction l with
  | nil => simp [splitSlash]
  | cons c rest ih =>
    have hc : c ≠ '/' := fun e => h (by rw [e]; exact List.mem_cons_self _ _)
    have hr : '/' ∉ rest := fun e => h (List.mem_cons_of_mem _ e)
    rw [splitSlash_cons_ne c rest hc, ih hr]
    simp

theorem joinSlash_cons (s : List Char) (L : List (List Char)) (hL : L ≠ []) :
    joinSlash (s :: L) = s ++ '/' :: joinSlash L := by
  obtain ⟨t, r, e⟩ := List.exists_cons_of_ne_nil hL
  subst e
  rfl

theorem splitSlash_joinSlash (L : List (List Char)) (hL : L ≠ [])
    (h : ∀ s ∈ L, '/' ∉ s) : splitSlash (joinSlash L) = L := by
  induction L with
  | nil => exact absurd rfl hL
  | cons s L' ih =>
    cases L' with
    | nil =>
      show splitSlash (joinSlash [s]) = [s]
      exact splitSlash_of_no_slash s (h s (List.mem_cons_self _ _))
    | cons t r =>
      rw [joinSlash_cons s (t :: r) (by simp), splitSlash_append,
        splitSlash_of_no_slash s (h s (List.mem_cons_self _ _)),
        ih (by simp) (fun x hx => h x (List.mem_cons_of_mem _ hx))]
      simp

theorem splitSlash_replicate (k : Nat) (r : List Char) :
    splitSlash (List.replicate k '/' ++ r) = List.replicate k [] ++ splitSlash r := by
  induction k with
  | zero => simp
  | succ n ih =>
    rw [List.replicate_succ, List.cons_append, splitSlash_cons_slash, ih,
      List.replicate_succ, List.cons_append]

theorem joinSlash_replicate_nil (k : Nat) (L : List (List Char)) (hL : L ≠ []) :
    joinSlash (List.replicate k [] ++ L) = List.replicate k '/' ++ joinSlash L := by
  induction k with
  | zero => simp
  | succ n ih =>
    rw [List.replicate_succ, List.cons_append,
      joinSlash_cons [] _ (by simp [hL]), ih, List.replicate_succ]
    simp

theorem joinSlash_replicate_nil_only (k : Nat) :
    joinSlash (List.replicate k []) = List.replicate (k - 1) '/' := by
  induction k with
  | zero => rfl
  | succ n ih =>
    cases n with
    | zero => rfl
    | succ m =>
      rw [List.replicate_succ, joinSlash_cons [] _ (by simp), ih]
      simp [List.replicate_succ]

theorem listStarts_iff (pat l : List Char) :
    listStarts pat l = true ↔ ∃ t, l = pat ++ t := by
  induction pat generalizing l with
  | nil => simp [listStarts]
  | cons p ps ih =>
    cases l with
    | nil => simp [listStarts]
    | cons c cs =>
      simp only [listStarts, Bool.and_eq_true, beq_iff_eq, ih, List.cons_append]
      constructor
      · rintro ⟨rfl, t, rfl⟩
        exact ⟨t, rfl⟩
      · rintro ⟨t, ht⟩
        obtain ⟨rfl, rfl⟩ : p = c ∧ cs = ps ++ t := by
          constructor
          · exact (List.cons.injEq .. ▸ ht).1.symm
          · exact (List.cons.injEq .. ▸ ht).2
        exact ⟨rfl, t, rfl⟩

theorem containsSub_exists (pat l : List Char) (h : containsSub pat l = true) :
    ∃ a b, l = a ++ pat ++ b := by
  induction l with
  | nil =>
    simp only [containsSub] at h
    obtain ⟨t, ht⟩ := (listStarts_iff pat []).mp h
    exact ⟨[], t, ht⟩
  | cons c cs ih =>
    simp only [containsSub, Bool.or_eq_true] at h
    rcases h with h | h
    · obtain ⟨t, ht⟩ := (listStarts_iff pat _).mp h
      exact ⟨[], t, ht⟩
    · obtain ⟨a, b, hab⟩ := ih h
      exact ⟨c :: a, b, by rw [hab]; simp⟩

theorem firstIdxWith_lt_length {α : Type} (f : α → Bool) (l : List α) (i : Nat)
    (h : firstIdxWith f l = some i) : i < l.length := by
  induction l generalizing i with
  | nil => simp [firstIdxWith] at h
  | cons a rest ih =>
    simp only [firstIdxWith] at h
    split at h
    · cases h
      simp
    · cases e : firstIdxWith f rest with
      | none => rw [e] at h; simp at h
      | some j =>
        rw [e] at h
        simp only [Option.map_some'] at h
        cases h
        exact Nat.succ_lt_succ (ih j e)

theorem firstIdxWith_le_of_getD {α : Type} (f : α → Bool) (l : List α) (j : Nat) (d : α)
    (hj : j < l.length) (hf : f (l.getD j d) = true) :
    ∃ i, firstIdxWith f l = some i ∧ i ≤ j := by
  induction l generalizing j with
  | nil => simp at hj
  | cons a rest ih =>
    by_cases ha : f a = true
    · exact ⟨0, by simp [firstIdxWith, ha], Nat.zero_le j⟩
    · cases j with
      | zero =>
        simp only [List.getD_cons_zero] at hf
        exact absurd hf ha
      | succ j' =>
        have hj' : j' < rest.length := Nat.lt_of_succ_lt_succ hj
        have hf' : f (rest.getD j' d) = true := by
          simpa [List.getD_cons_succ] using hf
        obtain ⟨i, hi, hle⟩ := ih j' hj' hf'
        refine ⟨i + 1, ?_, Nat.succ_le_succ hle⟩
        simp [firstIdxWith, ha, hi]

theorem getD_append_length {α : Type} (l₁ l₂ : List α) (a d : α) :
    (l₁ ++ a :: l₂).getD l₁.length d = a := by
  induction l₁ with
  | nil => rfl
  | cons x xs ih => simpa using ih

theorem dropWhile_append_all {α : Type} (p : α → Bool) (l₁ l₂ : List α)
    (h : ∀ a ∈ l₁, p a = true) : (l₁ ++ l₂).dropWhile p = l₂.dropWhile p := by
  induction l₁ with
  | nil => rfl
  | cons x xs ih =>
    rw [List.cons_append, List.dropWhile_cons_of_pos (h x (List.mem_cons_self _ _))]
    exact ih (fun a ha => h a (List.mem_cons_of_mem _ ha))

/-! ## Characterization of `normpath` outputs -/

theorem getLastD_append_ne {α : Type} (l1 l2 : List α) (d : α) (h : l2 ≠ []) :
    (l1 ++ l2).getLastD d = l2.getLastD d := by
  rw [List.getLastD_eq_getLast? d, List.getLastD_eq_getLast? d,
    List.getLast?_append_of_ne_nil l1 h]

theorem dropLast_append_ne {α : Type} (l1 l2 : List α) (h : l2 ≠ []) :
    (l1 ++ l2).dropLast = l1 ++ l2.dropLast := by
  induction l1 with
  | nil => rfl
  | cons x xs ih =>
    rw [List.cons_append]
    cases e : xs ++ l2 with
    | nil => exact absurd (List.append_eq_nil.mp e).2 h
    | cons y ys => rw [List.dropLast_cons₂, ← e, ih, List.cons_append]

theorem dropLast_replicate {α : Type} (m : Nat) (a : α) :
    (List.replicate m a).dropLast = List.replicate (m - 1) a := by
  cases m with
  | zero => rfl
  | succ n => rw [List.replicate_succ', List.dropLast_concat]; rfl

theorem getLastD_replicate {α : Type} (m : Nat) (a d : α) (h : m ≠ 0) :
    (List.replicate m a).getLastD d = a := by
  cases m with
  | zero => exact absurd rfl h
  | succ n => rw [List.replicate_succ', List.getLastD_concat]

theorem mem_getLastD {α : Type} (l : List α) (d : α) (h : l ≠ []) : l.getLastD d ∈ l := by
  rw [List.getLastD_eq_getLast? d l, List.getLast?_eq_getLast_of_ne_nil h]
  exact List.getLast_mem h

/-- A component kept by `normpath`: nonempty, slash-free, not `"."`. -/
def goodSeg (s : List Char) : Prop := s ≠ [] ∧ '/' ∉ s ∧ s ≠ ['.']

/-- Invariant of the `new_comps` accumulator of `normpath` for a path whose
`initial_slashes` count is `k`: all components are good, the `".."`
components form a prefix, and no `".."` survives on an absolute path. -/
def NormSegs (k : Nat) (L : List (List Char)) : Prop :=
  (∀ s ∈ L, goodSeg s) ∧
  (∃ m rest, L = List.replicate m "..".data ++ rest ∧ "..".data ∉ rest) ∧
  (k ≠ 0 → "..".data ∉ L)

/-- Reassembly of a `normpath` result from its slash count and components
(the last three lines of `normpath`). -/
def mkPath (k : Nat) (L : List (List Char)) : List Char :=
  if List.replicate k '/' ++ joinSlash L = [] then ['.']
  else List.replicate k '/' ++ joinSlash L

theorem normSegs_nil (k : Nat) : NormSegs k [] :=
  ⟨by simp, ⟨0, [], rfl, by simp⟩, by simp⟩

theorem npStep_skip (k : Nat) (acc : List (List Char)) (c : List Char)
    (h : c = [] ∨ c = ['.']) : npStep k acc c = acc := by
  simp [npStep, h]

theorem npStep_append (k : Nat) (acc : List (List Char)) (c : List Char)
    (h1 : ¬(c = [] ∨ c = ['.']))
    (h2 : c ≠ "..".data ∨ (k = 0 ∧ acc = []) ∨ (acc ≠ [] ∧ acc.getLastD [] = "..".data)) :
    npStep k acc c = acc ++ [c] := by
  rw [npStep, if_neg h1, if_pos h2]

theorem npStep_pop (k : Nat) (acc : List (List Char)) (c : List Char)
    (h1 : ¬(c = [] ∨ c = ['.']))
    (h2 : ¬(c ≠ "..".data ∨ (k = 0 ∧ acc = []) ∨ (acc ≠ [] ∧ acc.getLastD [] = "..".data))) :
    npStep k acc c = acc.dropLast := by
  rw [npStep, if_neg h1, if_neg h2]

/-- If a list with `".."`-prefix shape has `".."` at position `acc.length`,
everything before is `".."`. -/
theorem eq_replicate_of_dd_at (acc t rest : List (List Char)) (m : Nat)
    (e : acc ++ "..".data :: t = List.replicate m "..".data ++ rest)
    (hr : "..".data ∉ rest) : acc = List.replicate acc.length "..".data := by
  induction acc generalizing m rest with
  | nil => rfl
  | cons a acc' ih =>
    cases m with
    | zero =>
      simp only [List.replicate_zero, List.nil_append] at e
      exact absurd (by rw [← e]; exact List.mem_append_right _ (List.mem_cons_self _ _)) hr
    | succ n =>
      rw [List.replicate_succ, List.cons_append] at e
      injection e with e1 e2
      rw [List.length_cons, List.replicate_succ, e1]
      exact congrArg _ (ih rest n e2 hr)

theorem normSegs_dropLast (k : Nat) (L : List (List Char)) (h : NormSegs k L) :
    NormSegs k L.dropLast := by
  obtain ⟨hg, ⟨m, rest, e, hr⟩, hk⟩ := h
  refine ⟨fun s hs => hg s ((List.dropLast_sublist L).subset hs), ?_,
    fun hk0 hm => hk hk0 ((List.dropLast_sublist L).subset hm)⟩
  by_cases hrest : rest = []
  · subst hrest
    rw [List.append_nil] at e
    subst e
    exact ⟨m - 1, [], by rw [List.append_nil, dropLast_replicate], by simp⟩
  · refine ⟨m, rest.dropLast, ?_, fun hm => hr ((List.dropLast_sublist rest).subset hm)⟩
    rw [e, dropLast_append_ne _ _ hrest]

theorem normSegs_npStep (k : Nat) (acc : List (List Char)) (c : List Char)
    (h : NormSegs k acc) (hc : '/' ∉ c) : NormSegs k (npStep k acc c) := by
  by_cases h1 : c = [] ∨ c = ['.']
  · rw [npStep_skip k acc c h1]; exact h
  · by_cases h2 : c ≠ "..".data ∨ (k = 0 ∧ acc = []) ∨ (acc ≠ [] ∧ acc.getLastD [] = "..".data)
    · rw [npStep_append k acc c h1 h2]
      obtain ⟨hg, ⟨m, rest, e, hr⟩, hk⟩ := h
      push_neg at h1
      have hgc : goodSeg c := ⟨h1.1, hc, h1.2⟩
      refine ⟨?_, ?_, ?_⟩
      · intro s hs
        rcases List.mem_append.mp hs with hs | hs
        · exact hg s hs
        · rw [List.mem_singleton.mp hs]; exact hgc
      · by_cases hdd : c = "..".data
        · subst hdd
          rcases h2 with h2 | h2 | h2
          · exact absurd rfl h2
          · rw [h2.2]
            exact ⟨1, [], by simp, by simp⟩
          · -- the accumulator ends in "..", so by the prefix shape it is all ".."
            have hrest : rest = [] := by
              by_contra hne
              refine hr ?_
              have h3 := getLastD_append_ne (List.replicate m "..".data) rest ([] : List Char) hne
              rw [← e, h2.2] at h3
              rw [h3]
              exact mem_getLastD rest [] hne
            subst hrest
            rw [List.append_nil] at e
            subst e
            exact ⟨m + 1, [], by rw [List.append_nil, List.replicate_succ'], by simp⟩
        · refine ⟨m, rest ++ [c], by rw [e, List.append_assoc], ?_⟩
          intro hm
          rcases List.mem_append.mp hm with hm | hm
          · exact hr hm
          · exact hdd (List.mem_singleton.mp hm).symm
      · intro hk0 hm
        rcases List.mem_append.mp hm with hm | hm
        · exact hk hk0 hm
        · -- c = ".." is impossible on an absolute path
          have hcd : c = "..".data := ((List.mem_singleton).mp hm).symm
          subst hcd
          rcases h2 with h2 | h2 | h2
          · exact h2 rfl
          · exact hk0 h2.1
          · exact hk hk0 (by rw [← h2.2]; exact mem_getLastD acc [] h2.1)
    · rw [npStep_pop k acc c h1 h2]
      exact normSegs_dropLast k acc h

/-- The components accumulator computed by `normpath p`. -/
def npSegs (p : List Char) : List (List Char) :=
  (splitSlash p).foldl (npStep (initialSlashes p)) []

theorem normSegs_foldl (k : Nat) (comps : List (List Char)) (acc : List (List Char))
    (hc : ∀ s ∈ comps, '/' ∉ s) (h : NormSegs k acc) :
    NormSegs k (comps.foldl (npStep k) acc) := by
  induction comps generalizing acc with
  | nil => exact h
  | cons c cs ih =>
    rw [List.foldl_cons]
    exact ih (npStep k acc c) (fun s hs => hc s (List.mem_cons_of_mem _ hs))
      (normSegs_npStep k acc c h (hc c (List.mem_cons_self _ _)))

theorem normSegs_npSegs (p : List Char) : NormSegs (initialSlashes p) (npSegs p) :=
  normSegs_foldl _ _ _ (splitSlash_no_slash p) (normSegs_nil _)

theorem normpath_eq_mkPath (p : List Char) (hp : p ≠ []) :
    normpath p = mkPath (initialSlashes p) (npSegs p) := by
  rw [normpath, if_neg hp]
  rfl

theorem initialSlashes_le_two (p : List Char) : initialSlashes p ≤ 2 := by
  rw [initialSlashes]
  split
  · split <;> omega
  · omega

theorem initialSlashes_replicate (k : Nat) (hk : k ≤ 2) (x : List Char)
    (hx : ∀ c t, x = c :: t → c ≠ '/') :
    initialSlashes (List.replicate k '/' ++ x) = k := by
  interval_cases k
  · cases x with
    | nil => rfl
    | cons c t =>
      have h1 := hx c t rfl
      have h2 : ('/' : Char) ≠ c := Ne.symm h1
      simp [initialSlashes, listStarts, h1, h2]
  · cases x with
    | nil => rfl
    | cons c t =>
      have h1 := hx c t rfl
      have h2 : ('/' : Char) ≠ c := Ne.symm h1
      simp [initialSlashes, listStarts, h1, h2]
  · cases x with
    | nil => rfl
    | cons c t =>
      have h1 := hx c t rfl
      have h2 : ('/' : Char) ≠ c := Ne.symm h1
      simp [initialSlashes, listStarts, h1, h2]

theorem joinSlash_head_ne_slash (L : List (List Char)) (hg : ∀ s ∈ L, goodSeg s) :
    ∀ c t, joinSlash L = c :: t → c ≠ '/' := by
  intro c t he
  cases L with
  | nil => cases he
  | cons s L' =>
    obtain ⟨hne, hns, _⟩ := hg s (List.mem_cons_self _ _)
    cases s with
    | nil => exact absurd rfl hne
    | cons a s' =>
      have : a = c := by
        cases L' with
        | nil => exact (List.cons.injEq .. ▸ he).1
        | cons u r =>
          rw [joinSlash_cons _ _ (by simp), List.cons_append] at he
          exact (List.cons.injEq .. ▸ he).1
      rw [← this]
      exact fun hsl => hns (by rw [hsl]; exact List.mem_cons_self _ _)

theorem joinSlash_ne_nil (L : List (List Char)) (hL : L ≠ []) (hg : ∀ s ∈ L, goodSeg s) :
    joinSlash L ≠ [] := by
  cases L with
  | nil => exact absurd rfl hL
  | cons s L' =>
    obtain ⟨hne, _, _⟩ := hg s (List.mem_cons_self _ _)
    cases L' with
    | nil =>
      show joinSlash [s] ≠ []
      exact hne
    | cons u r =>
      rw [joinSlash_cons _ _ (by simp)]
      cases s with
      | nil => exact absurd rfl hne
      | cons a s' => simp

theorem foldl_npStep_replicate (k n : Nat) (acc : List (List Char)) :
    (List.replicate n ([] : List Char)).foldl (npStep k) acc = acc := by
  induction n with
  | zero => rfl
  | succ q ih =>
    rw [List.replicate_succ, List.foldl_cons, npStep_skip k acc [] (Or.inl rfl)]
    exact ih

theorem foldl_npStep_id (k : Nat) (L' : List (List Char)) (acc : List (List Char))
    (h : NormSegs k (acc ++ L')) : L'.foldl (npStep k) acc = acc ++ L' := by
  induction L' generalizing acc with
  | nil => simp
  | cons c L2 ih =>
    have hstep : npStep k acc c = acc ++ [c] := by
      obtain ⟨hg, ⟨m, rest, e, hr⟩, hk⟩ := h
      obtain ⟨hne, hns, hnd⟩ := hg c (List.mem_append_right acc (List.mem_cons_self _ _))
      refine npStep_append k acc c (by push_neg; exact ⟨hne, hnd⟩) ?_
      by_cases hdd : c = "..".data
      · subst hdd
        have hk0 : k = 0 := by
          by_contra hkne
          exact hk hkne (List.mem_append_right acc (List.mem_cons_self _ _))
        have hacc : acc = List.replicate acc.length "..".data :=
          eq_replicate_of_dd_at acc L2 rest m e hr
        cases hlen : acc.length with
        | zero =>
          exact Or.inr (Or.inl ⟨hk0, by rw [hacc, hlen]; rfl⟩)
        | succ q =>
          refine Or.inr (Or.inr ⟨?_, ?_⟩)
          · intro hnil
            rw [hnil] at hlen
            cases hlen
          · rw [hacc, hlen]
            exact getLastD_replicate _ _ _ (Nat.succ_ne_zero q)
      · exact Or.inl hdd
    rw [List.foldl_cons, hstep, ih (acc ++ [c]) (by rw [List.append_assoc]; exact h)]
    rw [List.append_assoc]
    rfl

theorem splitSlash_mkPath (k : Nat) (L : List (List Char)) (hL : L ≠ [])
    (hg : ∀ s ∈ L, goodSeg s) :
    splitSlash (mkPath k L) = List.replicate k [] ++ L := by
  have hj : joinSlash L ≠ [] := joinSlash_ne_nil L hL hg
  have hp : List.replicate k '/' ++ joinSlash L ≠ [] := by
    intro hcon
    exact hj (List.append_eq_nil.mp hcon).2
  rw [mkPath, if_neg hp, splitSlash_replicate,
    splitSlash_joinSlash L hL (fun s hs => (hg s hs).2.1)]

theorem normpath_mkPath (k : Nat) (L : List (List Char)) (hk : k ≤ 2)
    (h : NormSegs k L) : normpath (mkPath k L) = mkPath k L := by
  cases L with
  | nil =>
    interval_cases k
    · show normpath (mkPath 0 []) = mkPath 0 []
      decide
    · show normpath (mkPath 1 []) = mkPath 1 []
      decide
    · show normpath (mkPath 2 []) = mkPath 2 []
      decide
  | cons s L' =>
    set L := s :: L' with hLdef
    have hL : L ≠ [] := by simp [hLdef]
    have hg : ∀ x ∈ L, goodSeg x := h.1
    have hj : joinSlash L ≠ [] := joinSlash_ne_nil L hL hg
    have hp0 : List.replicate k '/' ++ joinSlash L ≠ [] := by
      intro hcon
      exact hj (List.append_eq_nil.mp hcon).2
    have hmk : mkPath k L = List.replicate k '/' ++ joinSlash L := by
      rw [mkPath, if_neg hp0]
    have hini : initialSlashes (mkPath k L) = k := by
      rw [hmk]
      exact initialSlashes_replicate k hk (joinSlash L) (joinSlash_head_ne_slash L hg)
    have hsplit : splitSlash (mkPath k L) = List.replicate k [] ++ L :=
      splitSlash_mkPath k L hL hg
    have hsegs : npSegs (mkPath k L) = L := by
      rw [npSegs, hini, hsplit, List.foldl_append, foldl_npStep_replicate]
      exact foldl_npStep_id k L [] (by simpa using h)
    rw [normpath_eq_mkPath _ (by rw [hmk]; exact hp0), hini, hsegs]

theorem normpath_idem (p : List Char) : normpath (normpath p) = normpath p := by
  by_cases hp : p = []
  · subst hp
    decide
  · rw [normpath_eq_mkPath p hp]
    exact normpath_mkPath _ _ (initialSlashes_le_two p) (normSegs_npSegs p)

/-! ## Behaviour of the directory normalization (`normDir`) -/

theorem normDir_of_not4 (p : List Char)
    (h : matches4 ((splitSlash (normpath p)).getLastD []) = false) :
    normDir p = normpath p := by
  rw [normDir, strip4Last, if_neg (by rw [h]; simp)]

theorem normDir_of_4 (p : List Char)
    (h : matches4 ((splitSlash (normpath p)).getLastD []) = true) :
    normDir p = joinSlash (splitSlash (normpath p)).dropLast := by
  rw [normDir, strip4Last, if_pos h]

theorem normDir_idem_cond (p : List Char)
    (h : matches4 ((splitSlash (normpath p)).getLastD []) = true →
         matches4 ((splitSlash (normpath p)).dropLast.getLastD []) = false ∧
         joinSlash (splitSlash (normpath p)).dropLast ≠ []) :
    normDir (normDir p) = normDir p := by
  by_cases h4 : matches4 ((splitSlash (normpath p)).getLastD []) = true
  · obtain ⟨hpen, hne⟩ := h h4
    by_cases hp : p = []
    · subst hp
      exact absurd h4 (by decide)
    · have hm := normpath_eq_mkPath p hp
      have hns := normSegs_npSegs p
      have hk2 := initialSlashes_le_two p
      set k := initialSlashes p with hkdef
      set nc := npSegs p with hncdef
      by_cases hnil : nc = []
      · rw [hm, hnil] at h4
        interval_cases k
        · exact absurd h4 (by decide)
        · exact absurd h4 (by decide)
        · exact absurd h4 (by decide)
      · have hsplit : splitSlash (normpath p) = List.replicate k [] ++ nc := by
          rw [hm]
          exact splitSlash_mkPath k nc hnil hns.1
        have hdl : (splitSlash (normpath p)).dropLast = List.replicate k [] ++ nc.dropLast := by
          rw [hsplit]
          exact dropLast_append_ne _ _ hnil
        have hnd : normDir p = joinSlash (List.replicate k [] ++ nc.dropLast) := by
          rw [normDir_of_4 p h4, hdl]
        by_cases hdl0 : nc.dropLast = []
        · rw [hdl0, List.append_nil, joinSlash_replicate_nil_only] at hnd
          have hne2 : List.replicate (k - 1) '/' ≠ [] := by
            rw [hdl, hdl0, List.append_nil, joinSlash_replicate_nil_only] at hne
            exact hne
          have hk : k = 2 := by
            by_contra hkne
            have : k - 1 = 0 := by omega
            rw [this] at hne2
            exact hne2 rfl
          rw [hk] at hnd
          rw [hnd]
          decide
        · have hg2 : ∀ s ∈ nc.dropLast, goodSeg s :=
            fun s hs => hns.1 s ((List.dropLast_sublist nc).subset hs)
          have hjoin : joinSlash (List.replicate k [] ++ nc.dropLast)
              = List.replicate k '/' ++ joinSlash nc.dropLast :=
            joinSlash_replicate_nil k _ hdl0
          have hmk2 : mkPath k nc.dropLast = List.replicate k '/' ++ joinSlash nc.dropLast := by
            rw [mkPath, if_neg]
            intro hcon
            exact (joinSlash_ne_nil _ hdl0 hg2) (List.append_eq_nil.mp hcon).2
          have hr : normDir p = mkPath k nc.dropLast := by
            rw [hnd, hjoin, hmk2]
          have hns2 : NormSegs k nc.dropLast := normSegs_dropLast k nc hns
          have hstab : normpath (normDir p) = normDir p := by
            rw [hr]
            exact normpath_mkPath k _ hk2 hns2
          have hsplit2 : splitSlash (normDir p) = List.replicate k [] ++ nc.dropLast := by
            rw [hr]
            exact splitSlash_mkPath k _ hdl0 hg2
          have hpen2 : matches4 ((splitSlash (normDir p)).getLastD []) = false := by
            rw [hsplit2, getLastD_append_ne _ _ _ hdl0]
            rw [hdl, getLastD_append_ne _ _ _ hdl0] at hpen
            exact hpen
          rw [normDir, hstab, strip4Last, if_neg (by rw [hpen2]; simp)]
  · have hf : matches4 ((splitSlash (normpath p)).getLastD []) = false :=
      Bool.eq_false_iff.mpr h4
    rw [normDir_of_not4 p hf, normDir, normpath_idem, strip4Last, if_neg (by rw [hf]; simp)]

/-! ## Claim C1 -/

/-- Claim C1, counterexample.  The claim "normalizing twice yields the same
result as normalizing once" is false: each application strips only one
trailing 4-digit segment, so on `a/0000/0000` the first application yields
`a/0000` — itself an already-normalized directory path (`normpath`-stable,
being the output of the normalizer) — and the second application strips
again, yielding `a`. -/
theorem C1_counterexample :
    normDir "a/0000/0000".data = "a/0000".data ∧
    normpath "a/0000".data = "a/0000".data ∧
    normDir "a/0000".data = "a".data ∧
    normDir (normDir "a/0000/0000".data) ≠ normDir "a/0000/0000".data := by
  refine ⟨by decide, by decide, by decide, by decide⟩

/-- Claim C1 (amended).  The normalization of `get_ntuple_dirs_from_xml`
(`normpath` followed by one 4-digit shard strip) strips at most one trailing
4-digit segment per application, so idempotence holds only conditionally:
(1) normalizing twice equals normalizing once provided that, whenever the
separator-normalized path ends in a 4-digit segment, the segment before it
is not itself a 4-digit segment and the stripped result is nonempty;
(2) a separator-normalized path ending in a 4-digit segment normalizes to
its parent (the join of all segments but the last); (3) a separator-
normalized path ending in a non-4-digit segment is unchanged. -/
theorem C1_normalization_idempotence_amended :
    (∀ p : List Char,
      (matches4 ((splitSlash (normpath p)).getLastD []) = true →
        matches4 ((splitSlash (normpath p)).dropLast.getLastD []) = false ∧
        joinSlash (splitSlash (normpath p)).dropLast ≠ []) →
      normDir (normDir p) = normDir p) ∧
    (∀ p : List Char, normpath p = p →
      matches4 ((splitSlash p).getLastD []) = true →
      normDir p = joinSlash (splitSlash p).dropLast) ∧
    (∀ p : List Char, normpath p = p →
      matches4 ((splitSlash p).getLastD []) = false →
      normDir p = p) := by
  refine ⟨normDir_idem_cond, ?_, ?_⟩
  · intro p hnp h4
    have := normDir_of_4 p (by rw [hnp]; exact h4)
    rwa [hnp] at this
  · intro p hnp hf
    have := normDir_of_not4 p (by rw [hnp]; exact hf)
    rwa [hnp] at this

/-- Claim C1, witness.  The amended theorem applied at concrete inputs. -/
theorem C1_witness :
    normDir (normDir "store/user/alice/job/0000".data)
      = normDir "store/user/alice/job/0000".data ∧
    normDir "a/b/0000".data = joinSlash (splitSlash "a/b/0000".data).dropLast ∧
    normDir "a/b".data = "a/b".data :=
  ⟨C1_normalization_idempotence_amended.1 _ (by decide),
   C1_normalization_idempotence_amended.2.1 _ (by decide) (by decide),
   C1_normalization_idempotence_amended.2.2 _ (by decide) (by decide)⟩

/-! ## Claim C4 -/

/-- Claim C4.  Characterization of `get_year_from_path`, for every path (in
particular every separator-normalized one): if no `"/"`-separated segment
contains `"RunII_"`, the result is the first segment satisfying the year
validity predicate (contains `"16"`, `"17"` or `"18"` and not `".xml"`);
otherwise, with `i` the index of the first segment containing `"RunII_"`,
the result is `none` when that segment is final, and otherwise the
immediately following segment exactly when that segment is valid. -/
theorem C4_resolve_year_spec (p : List Char) :
    (firstIdxWith (fun s => containsSub "RunII_".data s) (splitSlash p) = none →
      getYearFromPath p = (splitSlash p).find? (fun s => isYearSeg s)) ∧
    (∀ i, firstIdxWith (fun s => containsSub "RunII_".data s) (splitSlash p) = some i →
      (i + 1 = (splitSlash p).length → getYearFromPath p = none) ∧
      (i + 1 < (splitSlash p).length →
        getYearFromPath p =
          if isYearSeg ((splitSlash p).getD (i + 1) []) then
            some ((splitSlash p).getD (i + 1) [])
          else none)) := by
  constructor
  · intro h
    rw [getYearFromPath]
    simp only [h]
  · intro i hi
    have hilt : i < (splitSlash p).length := firstIdxWith_lt_length _ _ _ hi
    constructor
    · intro hlen
      rw [getYearFromPath]
      simp only [hi]
      rw [if_pos (by omega)]
    · intro hlt
      rw [getYearFromPath]
      simp only [hi]
      rw [if_neg (by omega)]

/-- Claim C4, witness.  The characterization applied to the docstring's own
example path. -/
theorem C4_witness :
    getYearFromPath "RunII_102X_v1/2017v2/MC_TTbar.xml".data =
      if isYearSeg ((splitSlash "RunII_102X_v1/2017v2/MC_TTbar.xml".data).getD 1 []) then
        some ((splitSlash "RunII_102X_v1/2017v2/MC_TTbar.xml".data).getD 1 [])
      else none :=
  ((C4_resolve_year_spec "RunII_102X_v1/2017v2/MC_TTbar.xml".data).2 0 (by decide)).2
    (by decide)

/-! ## Claim C5 -/

theorem marker_seg (u n : List Char) (hu : '/' ∉ u)
    (h : containsSub ('/' :: (u ++ ['/'])) n = true) :
    ∃ j, j + 1 < (splitSlash n).length ∧ (splitSlash n).getD j [] = u := by
  obtain ⟨a, b, hab⟩ := containsSub_exists _ _ h
  have hn : n = a ++ '/' :: (u ++ '/' :: b) := by
    rw [hab]
    simp
  have hsplit : splitSlash n = splitSlash a ++ (u :: splitSlash b) := by
    rw [hn, splitSlash_append, splitSlash_append, splitSlash_of_no_slash u hu]
    simp
  have hb : splitSlash b ≠ [] := splitSlash_ne_nil b
  refine ⟨(splitSlash a).length, ?_, ?_⟩
  · rw [hsplit, List.length_append, List.length_cons]
    have := List.length_pos.mpr hb
    omega
  · rw [hsplit, getD_append_length]

theorem firstIdx_marker (u n : List Char) (hu : '/' ∉ u)
    (h : containsSub ('/' :: (u ++ ['/'])) n = true) :
    ∃ i, firstIdxWith (· = u) (splitSlash n) = some i ∧
      i + 1 < (splitSlash n).length := by
  obtain ⟨j, hj, hju⟩ := marker_seg u n hu h
  obtain ⟨i, hi, hle⟩ := firstIdxWith_le_of_getD (· = u) (splitSlash n) j []
    (by omega) (by rw [hju]; simp)
  exact ⟨i, hi, by omega⟩

/-- Claim C5, counterexample helper.  `resolve_owner` as the claim words it:
on the separator-split segments of the normalized path, if neither literal
segment `"user"` nor `"group"` occurs, null; otherwise the segment
immediately following the first occurrence of the marker (checking `"user"`
before `"group"`), null if the marker is the final segment. -/
def specResolveOwner (d : List Char) : Option (List Char) :=
  let parts := splitSlash (normpath d)
  if "user".data ∈ parts then
    match firstIdxWith (· = "user".data) parts with
    | some i => if i + 1 < parts.length then some (parts.getD (i + 1) []) else none
    | none => none
  else if "group".data ∈ parts then
    match firstIdxWith (· = "group".data) parts with
    | some i => if i + 1 < parts.length then some (parts.getD (i + 1) []) else none
    | none => none
  else none

/-- Claim C5, counterexample.  On `user/alice/x` the marker `"user"` occurs as
the first segment of the (already normalized) relative path, so the claim
demands owner `"alice"`; the code's substring test `"/user/" in path` fails
(no leading slash) and `get_dir_user` returns `None`. -/
theorem C5_counterexample :
    specResolveOwner "user/alice/x".data = some "alice".data ∧
    getDirUser "user/alice/x".data = none := by
  refine ⟨by decide, by decide⟩

/-- Claim C5 (amended).  `get_dir_user` resolves the owner via the substring
markers `"/user/"` and `"/group/"`, not via segment membership: if neither
substring occurs in the raw path the result is null; otherwise, on the
normalized path `n`, if `"/user/"` occurs in `n` the result is the segment
immediately following the first `"user"` segment (such a segment always
exists and is never final, so this branch never yields null); otherwise if
`"/group/"` occurs in `n`, symmetrically; otherwise null.  Consequently a
marker segment at the start of a relative path or in final position is not
matched, and `"/user/"` takes priority over `"/group/"`. -/
theorem C5_resolve_owner_amended (d : List Char) :
    (containsSub "/user/".data d = false ∧ containsSub "/group/".data d = false →
      getDirUser d = none) ∧
    ((containsSub "/user/".data d = true ∨ containsSub "/group/".data d = true) →
      (containsSub "/user/".data (normpath d) = true →
        ∃ i, firstIdxWith (· = "user".data) (splitSlash (normpath d)) = some i ∧
          i + 1 < (splitSlash (normpath d)).length ∧
          getDirUser d = some ((splitSlash (normpath d)).getD (i + 1) [])) ∧
      (containsSub "/user/".data (normpath d) = false →
        containsSub "/group/".data (normpath d) = true →
        ∃ i, firstIdxWith (· = "group".data) (splitSlash (normpath d)) = some i ∧
          i + 1 < (splitSlash (normpath d)).length ∧
          getDirUser d = some ((splitSlash (normpath d)).getD (i + 1) [])) ∧
      (containsSub "/user/".data (normpath d) = false →
        containsSub "/group/".data (normpath d) = false →
        getDirUser d = none)) := by
  constructor
  · intro ⟨h1, h2⟩
    rw [getDirUser, if_pos (by rw [h1, h2]; rfl)]
  · intro hguard
    have hcond : (!containsSub "/user/".data d && !containsSub "/group/".data d) = false := by
      rcases hguard with hg | hg <;> rw [hg] <;> simp
    refine ⟨?_, ?_, ?_⟩
    · intro hn
      have hpat : containsSub ('/' :: ("user".data ++ ['/'])) (normpath d) = true := by
        have : ('/' :: ("user".data ++ ['/'])) = "/user/".data := by decide
        rw [this]
        exact hn
      obtain ⟨i, hi, hlt⟩ := firstIdx_marker "user".data (normpath d) (by decide) hpat
      refine ⟨i, hi, hlt, ?_⟩
      rw [getDirUser, if_neg (by rw [hcond]; simp)]
      simp only [hn, if_pos, hi]
      rw [if_neg (by omega)]
    · intro hn hg
      have hpat : containsSub ('/' :: ("group".data ++ ['/'])) (normpath d) = true := by
        have : ('/' :: ("group".data ++ ['/'])) = "/group/".data := by decide
        rw [this]
        exact hg
      obtain ⟨i, hi, hlt⟩ := firstIdx_marker "group".data (normpath d) (by decide) hpat
      refine ⟨i, hi, hlt, ?_⟩
      rw [getDirUser, if_neg (by rw [hcond]; simp)]
      simp only [hn, hg, if_pos]
      simp only [Bool.false_eq_true, if_false]
      simp only [hi]
      rw [if_neg (by omega)]
    · intro hn hg
      rw [getDirUser, if_neg (by rw [hcond]; simp)]
      simp only [hn, hg]
      simp

/-- Claim C5, witness.  The amended theorem applied at concrete paths from
the function's docstring. -/
theorem C5_witness :
    getDirUser "a/b".data = none ∧
    (∃ i, firstIdxWith (· = "user".data)
        (splitSlash (normpath "/store/user/alice/dir".data)) = some i ∧
      i + 1 < (splitSlash (normpath "/store/user/alice/dir".data)).length ∧
      getDirUser "/store/user/alice/dir".data =
        some ((splitSlash (normpath "/store/user/alice/dir".data)).getD (i + 1) [])) ∧
    (∃ i, firstIdxWith (· = "group".data)
        (splitSlash (normpath "/store/group/uhh/x".data)) = some i ∧
      i + 1 < (splitSlash (normpath "/store/group/uhh/x".data)).length ∧
      getDirUser "/store/group/uhh/x".data =
        some ((splitSlash (normpath "/store/group/uhh/x".data)).getD (i + 1) [])) :=
  ⟨(C5_resolve_owner_amended "a/b".data).1 (by decide),
   ((C5_resolve_owner_amended "/store/user/alice/dir".data).2 (by decide)).1 (by decide),
   ((C5_resolve_owner_amended "/store/group/uhh/x".data).2 (by decide)).2.1
     (by decide) (by decide)⟩

/-! ## Claims C6 and C9: comment handling in the extraction loop -/

theorem extractStep_closes (st : Bool) (line : List Char)
    (h : listEnds "-->".data (pyStrip line) = true) :
    extractStep st line = (false, none) := by
  simp [extractStep, h]

theorem extractStep_opens (st : Bool) (line : List Char)
    (hs : listStarts "<!--".data (pyStrip line) = true)
    (he : listEnds "-->".data (pyStrip line) = false) :
    extractStep st line = (true, none) := by
  simp [extractStep, hs, he]

theorem extractStep_inComment (line : List Char)
    (he : listEnds "-->".data (pyStrip line) = false) :
    extractStep true line = (true, none) := by
  simp [extractStep, he]

theorem extractGo_cons (st : Bool) (line : List Char) (rest : List (List Char)) :
    extractGo st (line :: rest) =
      match extractStep st line with
      | (st2, none) => extractGo st2 rest
      | (st2, some f) => f :: extractGo st2 rest := rfl

theorem extractGo_drop_inComment (mid : List (List Char)) (l : List Char)
    (post : List (List Char))
    (hmid : ∀ m ∈ mid, listEnds "-->".data (pyStrip m) = false)
    (hl : listEnds "-->".data (pyStrip l) = false) :
    extractGo true (mid ++ l :: post) = extractGo true (mid ++ post) := by
  induction mid with
  | nil =>
    rw [List.nil_append, List.nil_append, extractGo_cons, extractStep_inComment l hl]
  | cons m mid' ih =>
    rw [List.cons_append, List.cons_append, extractGo_cons, extractGo_cons,
      extractStep_inComment m (hmid m (List.mem_cons_self _ _))]
    exact ih (fun x hx => hmid x (List.mem_cons_of_mem _ hx))

/-- Claim C6.  Comment handling of `get_ntuple_filenames_from_xml`:
(1) a trimmed line starting with `<!--` (and not ending `-->`) sets the
inside-comment flag and yields nothing; (2) a trimmed line ending with
`-->` clears the flag and is itself skipped; (3) while the flag is set a
line (not ending `-->`) is skipped entirely and the flag stays set;
(4) consequently a line enclosed between a comment-open line and the
comment-close line can be deleted without changing the extraction output —
it is never yielded, even if it matches the extraction pattern. -/
theorem C6_comment_skipping :
    (∀ (st : Bool) (l : List Char),
      listStarts "<!--".data (pyStrip l) = true →
      listEnds "-->".data (pyStrip l) = false →
      extractStep st l = (true, none)) ∧
    (∀ (st : Bool) (l : List Char),
      listEnds "-->".data (pyStrip l) = true →
      extractStep st l = (false, none)) ∧
    (∀ l : List Char,
      listEnds "-->".data (pyStrip l) = false →
      extractStep true l = (true, none)) ∧
    (∀ (st : Bool) (opener l : List Char) (mid post : List (List Char)),
      listStarts "<!--".data (pyStrip opener) = true →
      (∀ m ∈ opener :: mid, listEnds "-->".data (pyStrip m) = false) →
      listEnds "-->".data (pyStrip l) = false →
      extractGo st (opener :: (mid ++ l :: post)) =
        extractGo st (opener :: (mid ++ post))) := by
  refine ⟨extractStep_opens, extractStep_closes, extractStep_inComment, ?_⟩
  intro st opener l mid post hop hmid hl
  rw [extractGo_cons, extractGo_cons,
    extractStep_opens st opener hop (hmid opener (List.mem_cons_self _ _))]
  exact extractGo_drop_inComment mid l post
    (fun m hm => hmid m (List.mem_cons_of_mem _ hm)) hl

/-- Claim C6, witness.  A line matching the extraction pattern, enclosed in a
comment, is dropped from the output: deleting it changes nothing, and the
whole descriptor yields no filenames. -/
theorem C6_witness :
    searchFname "<In FileName=\"x/y/0000/f.root\" Lumi=\"0.0\"/>".data
      = some "x/y/0000/f.root".data ∧
    extractGo false
      ["<!--".data, "<In FileName=\"x/y/0000/f.root\" Lumi=\"0.0\"/>".data, "-->".data]
      = extractGo false ["<!--".data, "-->".data] :=
  ⟨by decide,
   C6_comment_skipping.2.2.2 false "<!--".data
     "<In FileName=\"x/y/0000/f.root\" Lumi=\"0.0\"/>".data [] ["-->".data]
     (by decide) (by decide) (by decide)⟩

/-- Claim C9.  Any line whose trimmed form ends with `-->` is skipped (it
yields nothing) and clears the comment flag, regardless of the current flag
and of whether the line matches the extraction pattern. -/
theorem C9_close_marker_skips (st : Bool) (l : List Char) (rest : List (List Char))
    (h : listEnds "-->".data (pyStrip l) = true) :
    extractGo st (l :: rest) = extractGo false rest := by
  rw [extractGo_cons, extractStep_closes st l h]

/-- Claim C9, witness.  A line that matches the single-file-reference pattern
but ends with `-->` yields nothing even with no comment open. -/
theorem C9_witness :
    searchFname (pyStrip "<In FileName=\"a/b.root\" Lumi=\"0.0\"/> -->".data)
      = some "a/b.root".data ∧
    extractGo false ["<In FileName=\"a/b.root\" Lumi=\"0.0\"/> -->".data] = [] :=
  ⟨by decide,
   (C9_close_marker_skips false "<In FileName=\"a/b.root\" Lumi=\"0.0\"/> -->".data []
     (by decide)).trans rfl⟩

/-! ## The table-row pipeline (scan root, generators, probe) -/

/-- Oracle for the filesystem calls of `get_ntuple_dir_data`:
`os.path.isdir`, `get_size` (an `os.walk`-based byte sum over the existing
directory, reported in kB) and `get_creation_time` (ISO-8601 string of the
directory's ctime).  The two latter are only consulted on existing
directories, so their values are abstract here. -/
structure FileSystem where
  isdir : List Char → Bool
  sizeKB : List Char → Rat
  ctime : List Char → List Char

/-- The dict built by `get_ntuple_dir_data` (key order: ntuple_dir, size,
user, creation_time). -/
structure NtupleDirData where
  ntuple_dir : List Char
  size : Rat
  user : Option (List Char)
  creation_time : List Char
deriving DecidableEq

/-- Embedding of `XMLNtupleDirDataGenerator.get_ntuple_dir_data`: sentinels `-1` and
`"-1"` are installed first, `user` is always resolved from the path string
alone, and only when `os.path.isdir` succeeds are size and creation time
probed.  Totality of this function models "returns without raising". -/
def getNtupleDirData (fs : FileSystem) (ntupleDir : List Char) : NtupleDirData :=
  if fs.isdir ntupleDir then
    { ntuple_dir := ntupleDir, size := fs.sizeKB ntupleDir,
      user := getDirUser ntupleDir, creation_time := fs.ctime ntupleDir }
  else
    { ntuple_dir := ntupleDir, size := -1,
      user := getDirUser ntupleDir, creation_time := "-1".data }

/-- A filesystem on which no directory exists. -/
def noFS : FileSystem :=
  { isdir := fun _ => false, sizeKB := fun _ => 0, ctime := fun _ => [] }

/-- Python `os.path.basename` (the `filename` component produced by
`os.walk`, to which `create_sql_db_xml.py` applies `os.path.splitext`). -/
def baseName (p : List Char) : List Char :=
  (p.reverse.takeWhile (fun c => c != '/')).reverse

/-- A scan root, modelled as an association list from relative file paths
to file contents (lists of raw lines); `os.walk` order is the list order. -/
def ScanRoot : Type := List (List Char × List (List Char))

/-- Embedding of `get_xml_filenames`: every file under the root whose extension is
exactly `.xml`, as a path relative to the root. -/
def xmlFilenames (root : ScanRoot) : List (List Char) :=
  (root.map Prod.fst).filter (fun p => pySplitextExt (baseName p) = ".xml".data)

/-- Contents of the file at relative path `p` (the `open(xml_filename)` of
`get_ntuple_filenames_from_xml`; only called on paths present in the root). -/
def linesOf (root : ScanRoot) (p : List Char) : List (List Char) :=
  match root.find? (fun e => e.fst = p) with
  | some e => e.snd
  | none => []

/-- The dict built by `XMLFileDataGenerator.get_xml_data` (key order:
filepath, year, branch, git_src). -/
structure XmlRow where
  filepath : List Char
  year : List Char
  branch : List Char
  git_src : List Char
deriving DecidableEq

/-- Embedding of `get_xml_data`: year and branch are inferred from the (normalized)
descriptor path itself and degrade to `""` when unresolvable. -/
def getXmlData (gitSource xmlPath : List Char) : XmlRow :=
  let path := normpath xmlPath
  { filepath := xmlPath,
    year := (getYearFromPath path).getD [],
    branch := (getBranchFromPath path).getD [],
    git_src := gitSource }

/-- Table-A rows: `XMLFileDataGenerator.__iter__`. -/
def tableARows (gitSource : List Char) (root : ScanRoot) : List XmlRow :=
  (xmlFilenames root).map (getXmlData gitSource)

/-- A table-B row: the `get_ntuple_dir_data` dict with `xml_filepath`
appended by `XMLNtupleDirDataGenerator.__iter__`. -/
structure NtupleDirRow where
  ntuple_dir : List Char
  size : Rat
  user : Option (List Char)
  creation_time : List Char
  xml_filepath : List Char
deriving DecidableEq

/-- Table-B rows: `XMLNtupleDirDataGenerator.__iter__` (the periodic
`sleep` throttle changes no data and is not modelled). -/
def tableBRows (fs : FileSystem) (root : ScanRoot) : List NtupleDirRow :=
  ((xmlFilenames root).map (fun xp =>
    (getNtupleDirsFromLines (linesOf root xp)).map (fun d =>
      let data := getNtupleDirData fs d
      { ntuple_dir := data.ntuple_dir, size := data.size, user := data.user,
        creation_time := data.creation_time, xml_filepath := xp }))).flatten

/-! ## Claim C3: declared table schemas -/

/-- The `xml_table_fields` list of `create_xml_table` (source order). -/
def xmlTableFields : List String :=
  ["filepath TEXT NOT NULL",
   "branch TEXT NOT NULL",
   "git_src TEXT",
   "year TEXT NOT NULL"]

/-- The `xml_ntuple_dir_table_fields` list of `create_xml_ntuple_dir_table`. -/
def xmlNtupleDirTableFields : List String :=
  ["xml_filepath TEXT NOT NULL",
   "ntuple_dir TEXT NOT NULL",
   "size FLOAT",
   "user TEXT",
   "creation_time TEXT"]

/-- Embedding of `create_xml_table` declares its schema only when `append` is false. -/
def createXmlTableFields (append : Bool) : Option (List String) :=
  if append then none else some xmlTableFields

/-- Embedding of `create_xml_ntuple_dir_table` declares its schema only when `append`
is false. -/
def createXmlNtupleDirTableFields (append : Bool) : Option (List String) :=
  if append then none else some xmlNtupleDirTableFields

/-- Claim C3, counterexample.  With `append` false the descriptor table is
declared with `git_src` third and `year` fourth, not in the claim's order
`filepath, branch, year, git_src`. -/
theorem C3_counterexample :
    createXmlTableFields false = some xmlTableFields ∧
    xmlTableFields ≠
      ["filepath TEXT NOT NULL", "branch TEXT NOT NULL",
       "year TEXT NOT NULL", "git_src TEXT"] := by
  refine ⟨rfl, by decide⟩

/-- Claim C3 (amended).  When the tables are created fresh (`append` false),
the descriptor-metadata table is declared with columns in the order
`filepath TEXT NOT NULL, branch TEXT NOT NULL, git_src TEXT,
year TEXT NOT NULL`, and the directory-metadata table with columns in the
order `xml_filepath TEXT NOT NULL, ntuple_dir TEXT NOT NULL, size FLOAT,
user TEXT, creation_time TEXT`. -/
theorem C3_table_schemas_amended :
    createXmlTableFields false =
      some ["filepath TEXT NOT NULL", "branch TEXT NOT NULL",
            "git_src TEXT", "year TEXT NOT NULL"] ∧
    createXmlNtupleDirTableFields false =
      some ["xml_filepath TEXT NOT NULL", "ntuple_dir TEXT NOT NULL",
            "size FLOAT", "user TEXT", "creation_time TEXT"] :=
  ⟨rfl, rfl⟩

/-! ## Claims C7 and C10: the directory probe -/

/-- Claim C7.  For every directory path that does not exist on the
filesystem, `get_ntuple_dir_data` returns the sentinel size `-1` and
creation time `"-1"`; the function is total (no error is raised). -/
theorem C7_probe_missing_dir (fs : FileSystem) (d : List Char)
    (h : fs.isdir d = false) :
    (getNtupleDirData fs d).size = -1 ∧
    (getNtupleDirData fs d).creation_time = "-1".data := by
  simp [getNtupleDirData, h]

/-- Claim C7, witness. -/
theorem C7_witness :
    (getNtupleDirData noFS "/pnfs/desy.de/missing".data).size = -1 ∧
    (getNtupleDirData noFS "/pnfs/desy.de/missing".data).creation_time = "-1".data :=
  C7_probe_missing_dir noFS "/pnfs/desy.de/missing".data rfl

/-- Claim C10.  The `user` field produced by `get_ntuple_dir_data` equals
`get_dir_user` of the path string for every filesystem state (and the
`ntuple_dir` field is the path itself); directory existence can influence
only the remaining fields, `size` and `creation_time`. -/
theorem C10_user_independent_of_fs (fs : FileSystem) (d : List Char) :
    (getNtupleDirData fs d).user = getDirUser d ∧
    (getNtupleDirData fs d).ntuple_dir = d := by
  by_cases h : fs.isdir d = true <;> simp [getNtupleDirData, h]

/-! ## Claim C2: the end-to-end scenario -/

/-- The two referenced-file lines of the scenario descriptor. -/
def c2Lines : List (List Char) :=
  ["<In FileName=\"RunII_102X_v1/2017v2/store/user/alice/job/0000/f1.root\" Lumi=\"0.0\"/>".data,
   "<In FileName=\"RunII_102X_v1/2017v2/store/user/alice/job/0001/f2.root\" Lumi=\"0.0\"/>".data]

/-- The claim's scan root: one descriptor `a.xml` at the root itself. -/
def c2Root : ScanRoot := [("a.xml".data, c2Lines)]

/-- The amended scan root: the descriptor placed on the branch/year path
that table A actually reads its labels from. -/
def c2RootAmended : ScanRoot := [("RunII_102X_v1/2017v2/a.xml".data, c2Lines)]

/-- Claim C2, counterexample.  Table-A branch and year are inferred from the
descriptor's own relative path, not from the referenced file paths: for the
descriptor `a.xml` at the scan root both degrade to `""`, not
`"RunII_102X_v1"` / `"2017v2"` as the claim states. -/
theorem C2_counterexample :
    tableARows "UHH2-datasets/master".data c2Root =
      [{ filepath := "a.xml".data, year := [], branch := [],
         git_src := "UHH2-datasets/master".data }] ∧
    (∀ r ∈ tableARows "UHH2-datasets/master".data c2Root,
      r.branch ≠ "RunII_102X_v1".data ∧ r.year ≠ "2017v2".data) := by
  refine ⟨by decide, by decide⟩

/-- Claim C2 (amended).  For a scan root containing one descriptor
`RunII_102X_v1/2017v2/a.xml` referencing the two files
`RunII_102X_v1/2017v2/store/user/alice/job/0000/f1.root` and
`.../job/0001/f2.root`, the run produces exactly one table-A row with
`branch = "RunII_102X_v1"` and `year = "2017v2"` (branch and year come from
the descriptor's own path), and exactly one table-B row, whose `ntuple_dir`
ends in `.../job` and whose `user` field is `"alice"` (on a filesystem
where the referenced directory does not exist, size and creation time are
the sentinels). -/
theorem C2_end_to_end_amended :
    tableARows "UHH2-datasets/master".data c2RootAmended =
      [{ filepath := "RunII_102X_v1/2017v2/a.xml".data, year := "2017v2".data,
         branch := "RunII_102X_v1".data, git_src := "UHH2-datasets/master".data }] ∧
    tableBRows noFS c2RootAmended =
      [{ ntuple_dir := "RunII_102X_v1/2017v2/store/user/alice/job".data, size := -1,
         user := some "alice".data, creation_time := "-1".data,
         xml_filepath := "RunII_102X_v1/2017v2/a.xml".data }] ∧
    listEnds "/job".data "RunII_102X_v1/2017v2/store/user/alice/job".data = true := by
  refine ⟨by decide, by decide, by decide⟩

/-! ## Claim C8: shard-suffix deduplication -/

theorem pyDirname_shard (b s n : List Char) (hne : s ≠ []) (hsl : '/' ∉ s)
    (hn : '/' ∉ n) :
    pyDirname (b ++ '/' :: (s ++ '/' :: n)) = b ++ '/' :: s := by
  obtain ⟨d, t, hsrev⟩ : ∃ d t, s.reverse = d :: t := by
    cases hs : s.reverse with
    | nil => exact absurd (by simpa using congrArg List.reverse hs) hne
    | cons d t => exact ⟨d, t, rfl⟩
  have hd : d ∈ s := by
    rw [← List.mem_reverse, hsrev]
    exact List.mem_cons_self _ _
  have hdne : d ≠ '/' := fun e => hsl (e ▸ hd)
  have hrev : (b ++ '/' :: (s ++ '/' :: n)).reverse
      = n.reverse ++ '/' :: (s.reverse ++ '/' :: b.reverse) := by
    simp
  have hdropn : (b ++ '/' :: (s ++ '/' :: n)).reverse.dropWhile (fun c => c != '/')
      = '/' :: (s.reverse ++ '/' :: b.reverse) := by
    rw [hrev, dropWhile_append_all]
    · rw [List.dropWhile_cons_of_neg (by simp)]
    · intro a ha
      have hna : a ∈ n := List.mem_reverse.mp ha
      have : a ≠ '/' := fun e => hn (e ▸ hna)
      simp [this]
  have hhead : ((b ++ '/' :: (s ++ '/' :: n)).reverse.dropWhile (fun c => c != '/')).reverse
      = (b ++ ['/']) ++ (s ++ ['/']) := by
    rw [hdropn]
    simp
  rw [pyDirname]
  simp only [hhead]
  rw [if_pos]
  · have hrr : ((b ++ ['/']) ++ (s ++ ['/'])).reverse
        = '/' :: (s.reverse ++ '/' :: b.reverse) := by
      simp
    rw [hrr, List.dropWhile_cons_of_pos (by simp), hsrev, List.cons_append,
      List.dropWhile_cons_of_neg (by simp [hdne]), ← List.cons_append, ← hsrev]
    simp
  · constructor
    · simp
    · intro hall
      rw [List.all_eq_true] at hall
      have := hall d (List.mem_append_right _ (List.mem_append_left _ hd))
      simp [hdne] at this

theorem initialSlashes_snoc_indep (b s t : List Char)
    (hs : ∀ c r, s = c :: r → c ≠ '/') (ht : ∀ c r, t = c :: r → c ≠ '/')
    (hsne : s ≠ []) (htne : t ≠ []) :
    initialSlashes (b ++ '/' :: s) = initialSlashes (b ++ '/' :: t) := by
  obtain ⟨c1, s', rfl⟩ := List.exists_cons_of_ne_nil hsne
  obtain ⟨c2, t', rfl⟩ := List.exists_cons_of_ne_nil htne
  have h1 : c1 ≠ '/' := hs c1 s' rfl
  have h2 : c2 ≠ '/' := ht c2 t' rfl
  have h1b : ('/' : Char) ≠ c1 := Ne.symm h1
  have h2b : ('/' : Char) ≠ c2 := Ne.symm h2
  match b with
  | [] => simp [initialSlashes, listStarts, h1b, h2b]
  | [c] =>
    by_cases hc : c = '/'
    · subst hc
      simp [initialSlashes, listStarts, h1b, h2b]
    · have hcb : ('/' : Char) ≠ c := Ne.symm hc
      simp [initialSlashes, listStarts, hcb]
  | a :: c :: rest =>
    have hX : listStarts ['/'] (rest ++ '/' :: c1 :: s')
        = listStarts ['/'] (rest ++ '/' :: c2 :: t') := by
      cases rest with
      | nil => simp [listStarts]
      | cons r0 r' => simp [listStarts]
    simp only [initialSlashes, listStarts, List.cons_append, List.append_assoc,
      Bool.and_true, Bool.and_eq_true, beq_iff_eq]
    rw [show List.append rest ('/' :: c1 :: s') = rest ++ '/' :: c1 :: s' from rfl,
      show List.append rest ('/' :: c2 :: t') = rest ++ '/' :: c2 :: t' from rfl, hX]

theorem normpath_snoc (b s : List Char) (hne : s ≠ []) (hsl : '/' ∉ s)
    (hdot : s ≠ ['.']) (hdd : s ≠ "..".data) :
    normpath (b ++ '/' :: s) =
      mkPath (initialSlashes (b ++ '/' :: s))
        ((splitSlash b).foldl (npStep (initialSlashes (b ++ '/' :: s))) [] ++ [s]) := by
  have hp : b ++ '/' :: s ≠ [] := by simp
  rw [normpath_eq_mkPath _ hp, npSegs]
  congr 1
  rw [splitSlash_append, splitSlash_of_no_slash s hsl, List.foldl_append,
    List.foldl_cons, List.foldl_nil,
    npStep_append _ _ _ (by push_neg; exact ⟨hne, hdot⟩) (Or.inl hdd)]

theorem matches4_of_digits (s : List Char) (hlen : s.length = 4)
    (hdig : ∀ c ∈ s, c.isDigit = true) : matches4 s = true := by
  have hall : s.all Char.isDigit = true := List.all_eq_true.mpr hdig
  simp [matches4, hlen, hall]

theorem ntupleDirOfFile_shard (b s n : List Char) (hlen : s.length = 4)
    (hdig : ∀ c ∈ s, c.isDigit = true) (hn : '/' ∉ n) :
    ntupleDirOfFile (b ++ '/' :: (s ++ '/' :: n)) =
      joinSlash (List.replicate (initialSlashes (b ++ '/' :: s)) [] ++
        (splitSlash b).foldl (npStep (initialSlashes (b ++ '/' :: s))) []) := by
  have hne : s ≠ [] := by
    intro h
    rw [h] at hlen
    simp at hlen
  have hsl : '/' ∉ s := by
    intro h
    have := hdig '/' h
    simp [Char.isDigit] at this
  have hdot : s ≠ ['.'] := by
    intro h
    rw [h] at hlen
    simp at hlen
  have hdd : s ≠ "..".data := by
    intro h
    rw [h] at hlen
    simp at hlen
  rw [ntupleDirOfFile, pyDirname_shard b s n hne hsl hn, normDir,
    normpath_snoc b s hne hsl hdot hdd]
  have hns : NormSegs (initialSlashes (b ++ '/' :: s))
      ((splitSlash b).foldl (npStep (initialSlashes (b ++ '/' :: s))) []) :=
    normSegs_foldl _ _ [] (splitSlash_no_slash b) (normSegs_nil _)
  have hgood : ∀ x ∈ (splitSlash b).foldl (npStep (initialSlashes (b ++ '/' :: s))) [] ++ [s],
      goodSeg x := by
    intro x hx
    rcases List.mem_append.mp hx with hx | hx
    · exact hns.1 x hx
    · rw [List.mem_singleton.mp hx]
      exact ⟨hne, hsl, hdot⟩
  have hsplit := splitSlash_mkPath (initialSlashes (b ++ '/' :: s))
    ((splitSlash b).foldl (npStep (initialSlashes (b ++ '/' :: s))) [] ++ [s])
    (by simp) hgood
  rw [strip4Last, hsplit, ← List.append_assoc, List.getLastD_concat,
    List.dropLast_concat, if_pos (matches4_of_digits s hlen hdig)]

/-- Claim C8.  Two referenced files that differ only in their trailing
4-digit shard directory (and in their filename) normalize to the same
directory, and a descriptor referencing both yields exactly one entry in
the deduplicated directory set (hence one table-B row for this
descriptor). -/
theorem C8_shard_dedup (b s1 s2 n1 n2 : List Char)
    (hs1 : s1.length = 4 ∧ ∀ c ∈ s1, c.isDigit = true)
    (hs2 : s2.length = 4 ∧ ∀ c ∈ s2, c.isDigit = true)
    (hn1 : '/' ∉ n1) (hn2 : '/' ∉ n2) :
    ntupleDirOfFile (b ++ '/' :: (s1 ++ '/' :: n1)) =
      ntupleDirOfFile (b ++ '/' :: (s2 ++ '/' :: n2)) ∧
    getNtupleDirsOfFiles
        [b ++ '/' :: (s1 ++ '/' :: n1), b ++ '/' :: (s2 ++ '/' :: n2)] =
      [ntupleDirOfFile (b ++ '/' :: (s1 ++ '/' :: n1))] := by
  have hhead : ∀ (s : List Char), (∀ c ∈ s, c.isDigit = true) →
      ∀ c r, s = c :: r → c ≠ '/' := by
    intro s hdig c r hc he
    have hm : c ∈ s := by
      rw [hc]
      exact List.mem_cons_self _ _
    have := hdig c hm
    rw [he] at this
    simp [Char.isDigit] at this
  have hne1 : s1 ≠ [] := by
    intro h
    rw [h] at hs1
    simp at hs1
  have hne2 : s2 ≠ [] := by
    intro h
    rw [h] at hs2
    simp at hs2
  have hk : initialSlashes (b ++ '/' :: s1) = initialSlashes (b ++ '/' :: s2) :=
    initialSlashes_snoc_indep b s1 s2 (hhead s1 hs1.2) (hhead s2 hs2.2) hne1 hne2
  have heq : ntupleDirOfFile (b ++ '/' :: (s1 ++ '/' :: n1)) =
      ntupleDirOfFile (b ++ '/' :: (s2 ++ '/' :: n2)) := by
    rw [ntupleDirOfFile_shard b s1 n1 hs1.1 hs1.2 hn1,
      ntupleDirOfFile_shard b s2 n2 hs2.1 hs2.2 hn2, hk]
  refine ⟨heq, ?_⟩
  simp only [getNtupleDirsOfFiles, List.foldl_cons, List.foldl_nil]
  rw [if_neg (List.not_mem_nil _), List.nil_append, ← heq,
    if_pos (List.mem_singleton.mpr rfl)]

/-- Claim C8, witness.  The spec's own shard example. -/
theorem C8_witness :
    ntupleDirOfFile "/store/crab_job/0000/a.root".data =
      ntupleDirOfFile "/store/crab_job/0001/b.root".data ∧
    getNtupleDirsOfFiles
        ["/store/crab_job/0000/a.root".data, "/store/crab_job/0001/b.root".data] =
      [ntupleDirOfFile "/store/crab_job/0000/a.root".data] :=
  C8_shard_dedup "/store/crab_job".data "0000".data "0001".data
    "a.root".data "b.root".data (by decide) (by decide) (by decide) (by decide)
